import Mathlib

/-!
Verification development for the pixelnet batch-generation pipeline
(`pixelnet/utils.py`).  The Python/numpy code is shallowly embedded:

* numpy tensors become nested lists (`List (List (List Nat))` for a
  batch of integer label images, and so on);
* ambient randomness becomes an explicit draw function `Nat → Nat`
  passed to each operation; a raw draw is reduced modulo the size of
  the sampled range, so the set of reachable results of the embedding
  is exactly the support of the numpy distribution;
* fallible numpy calls (`np.random.choice` on an empty sequence,
  `np.random.randint` with an empty range, `np.reshape` with a size
  mismatch) become `Except SampErr` with a distinct error constructor
  per raise site.
-/

namespace Pixelnet

/-- Failure modes of the sampling pipeline, one constructor per numpy
raise site: `emptyPool` for `np.random.choice` on an empty sequence,
`reshapeMismatch` for `np.reshape` with an element-count mismatch, and
`randintEmpty` for `np.random.randint` with an empty range. -/
inductive SampErr where
  | emptyPool
  | reshapeMismatch
  | randintEmpty
deriving DecidableEq

deriving instance DecidableEq for Except

/-- A sampled coordinate `(batch index, row, col)`, the integer triple the
generators build for `tf.gather_nd`. -/
abbrev Coord := Nat × Nat × Nat

/-- A batch of integer label images, indexed batch, row, column
(`target_labels`, shape `(B, H, W)`). -/
abbrev Labels3 := List (List (List Nat))

/-- The values returned by a successful `np.random.choice(pool, size=cnt,
replace=True)`: the `i`-th sample is the pool element at index
`draw i % pool.length`, so every pool element is reachable and nothing
else is.  The default `d` is never read when the pool is nonempty. -/
def choiceVals (pool : List α) (d : α) (cnt : Nat) (draw : Nat → Nat) : List α :=
  (List.range cnt).map (fun i => pool.getD (draw i % pool.length) d)

/-- Embedding of `np.random.choice(pool, size=cnt, replace=True)`:
numpy raises `ValueError` when the population is empty and at least one
sample is requested, and otherwise returns `cnt` independent draws from
the pool. -/
def npChoice (pool : List α) (d : α) (cnt : Nat) (draw : Nat → Nat) : Except SampErr (List α) :=
  if cnt = 0 then .ok []
  else if pool.length = 0 then .error .emptyPool
  else .ok (choiceVals pool d cnt draw)

/-- Embedding of `np.stack(np.where(target_labels == cls), axis=1)`
(utils.py line 197): all coordinates `(b, r, c)` of pixels of the whole
batch whose label equals `cls`, enumerated in row-major order. -/
def whereEq (labels : Labels3) (cls : Nat) : List Coord :=
  ((List.range labels.length).map (fun b =>
    ((List.range (labels.getD b []).length).map (fun r =>
      (List.range ((labels.getD b []).getD r []).length).filterMap (fun c =>
        if ((labels.getD b []).getD r []).getD c 0 = cls then some (b, r, c)
        else none))).flatten)).flatten

/-- The per-class loop of `stratified_pixel_samples` (utils.py lines
195-199): for each class in the list, locate its pixel pool over the
whole batch and draw `cnt` coordinates from it with replacement.  The
first empty pool with `cnt > 0` aborts the loop with the error raised
by `np.random.choice`. -/
def drawClasses (labels : Labels3) (cnt : Nat) (draw : Nat → Nat → Nat) :
    List Nat → Except SampErr (List (List Coord))
  | [] => .ok []
  | k :: ks =>
    match npChoice (whereEq labels k) (0, 0, 0) cnt (draw k) with
    | .error e => .error e
    | .ok picks =>
      match drawClasses labels cnt draw ks with
      | .error e => .error e
      | .ok rest => .ok (picks :: rest)

/-- Embedding of the coordinate construction of `stratified_pixel_samples`
(utils.py lines 195-202): per-class pools, `int(batchsize*npix/nclasses)`
draws per class (Python `int` truncation of a positive quotient is floor,
i.e. `Nat` division), `np.concatenate`, then `reshape((batchsize, npix, 3))`,
which numpy accepts exactly when the concatenated list has
`batchsize * npix` rows. -/
def stratifiedIndices (labels : Labels3) (batchsize npix nclasses : Nat)
    (draw : Nat → Nat → Nat) : Except SampErr (List Coord) :=
  match drawClasses labels (batchsize * npix / nclasses) draw (List.range nclasses) with
  | .error e => .error e
  | .ok per =>
    if per.flatten.length = batchsize * npix then .ok per.flatten
    else .error .reshapeMismatch

/-- Embedding of the coordinate construction of `random_pixel_samples`
(utils.py lines 124-131) together with the integer indices used by the
label gather on line 138: the batch-index channel is `np.arange(batchsize)`
broadcast over the samples, and the row/col draws are
`np.random.randint(sample_images.shape[1] - 1)` and
`np.random.randint(sample_images.shape[2] - 1)`, which numpy rejects when
the (exclusive) upper bound is not positive and which otherwise yield a
value strictly below that bound.  `h` and `w` are the spatial dimensions
of the (possibly augmented and cropped) batch. -/
def uniformSampleCoords (batchsize npix h w : Nat) (dx dy : Nat → Nat → Nat) :
    Except SampErr (List Coord) :=
  if h - 1 = 0 then .error .randintEmpty
  else if w - 1 = 0 then .error .randintEmpty
  else .ok ((List.range batchsize).flatMap (fun b =>
    (List.range npix).map (fun p => (b, dx b p % (h - 1), dy b p % (w - 1)))))

theorem choiceVals_length (pool : List α) (d : α) (cnt : Nat) (draw : Nat → Nat) :
    (choiceVals pool d cnt draw).length = cnt := by
  simp [choiceVals]

theorem choiceVals_mem (pool : List α) (d : α) (cnt : Nat) (draw : Nat → Nat)
    (hpool : pool ≠ []) : ∀ a ∈ choiceVals pool d cnt draw, a ∈ pool := by
  intro a ha
  simp only [choiceVals, List.mem_map, List.mem_range] at ha
  obtain ⟨i, _, rfl⟩ := ha
  have hlen : 0 < pool.length := List.length_pos.mpr hpool
  have hidx : draw i % pool.length < pool.length := Nat.mod_lt _ hlen
  rw [List.getD_eq_getElem pool d hidx]
  exact List.getElem_mem hidx

theorem npChoice_eq_ok (pool : List α) (d : α) (cnt : Nat) (draw : Nat → Nat)
    (hpool : pool ≠ []) :
    npChoice pool d cnt draw = .ok (choiceVals pool d cnt draw) := by
  unfold npChoice
  by_cases hc : cnt = 0
  · subst hc; simp [choiceVals]
  · have hl : pool.length ≠ 0 := fun h => hpool (List.length_eq_zero.mp h)
    rw [if_neg hc, if_neg hl]

theorem npChoice_ok_mem (pool : List α) (d : α) (cnt : Nat) (draw : Nat → Nat)
    (out : List α) (h : npChoice pool d cnt draw = .ok out) : ∀ a ∈ out, a ∈ pool := by
  unfold npChoice at h
  split at h
  · cases h; intro a ha; cases ha
  · split at h
    · cases h
    · rename_i hl
      cases h
      exact choiceVals_mem pool d cnt draw (fun he => hl (by simp [he]))

theorem drawClasses_ok_of_pools (labels : Labels3) (cnt : Nat) (draw : Nat → Nat → Nat)
    (ks : List Nat) (h : ∀ k ∈ ks, whereEq labels k ≠ []) :
    drawClasses labels cnt draw ks =
      .ok (ks.map (fun k => choiceVals (whereEq labels k) (0, 0, 0) cnt (draw k))) := by
  induction ks with
  | nil => rfl
  | cons k ks ih =>
    have hk := h k (List.mem_cons_self _ _)
    have hrec := ih (fun j hj => h j (List.mem_cons_of_mem _ hj))
    simp only [drawClasses, npChoice_eq_ok _ _ _ _ hk, hrec, List.map_cons]

theorem drawClasses_err_of_empty (labels : Labels3) (cnt : Nat) (draw : Nat → Nat → Nat)
    (ks : List Nat) (k : Nat) (hk : k ∈ ks) (hempty : whereEq labels k = [])
    (hcnt : cnt ≠ 0) : drawClasses labels cnt draw ks = .error .emptyPool := by
  induction ks with
  | nil => cases hk
  | cons k0 ks ih =>
    by_cases h0 : whereEq labels k0 = []
    · have he : npChoice (whereEq labels k0) ((0, 0, 0) : Coord) cnt (draw k0) =
          .error .emptyPool := by
        unfold npChoice
        rw [if_neg hcnt, h0]
        simp
      simp only [drawClasses, he]
    · rcases List.mem_cons.mp hk with rfl | htail
      · exact absurd hempty h0
      · simp only [drawClasses, npChoice_eq_ok _ _ _ _ h0, ih htail]

theorem drawClasses_mem_pool (labels : Labels3) (cnt : Nat) (draw : Nat → Nat → Nat)
    (ks : List Nat) (per : List (List Coord))
    (h : drawClasses labels cnt draw ks = .ok per) :
    ∀ t ∈ per.flatten, ∃ k ∈ ks, t ∈ whereEq labels k := by
  induction ks generalizing per with
  | nil =>
    cases h
    intro t ht; cases ht
  | cons k0 ks ih =>
    revert h
    unfold drawClasses
    cases e1 : npChoice (whereEq labels k0) (0, 0, 0) cnt (draw k0) with
    | error e => intro h; cases h
    | ok picks =>
      cases e2 : drawClasses labels cnt draw ks with
      | error e => intro h; cases h
      | ok rest =>
        intro h
        cases h
        intro t ht
        rcases (by simpa using ht : t ∈ picks ∨ ∃ l ∈ rest, t ∈ l) with hp | ⟨l, hl, htl⟩
        · exact ⟨k0, List.mem_cons_self _ _, npChoice_ok_mem _ _ _ _ _ e1 t hp⟩
        · obtain ⟨k, hk, hkmem⟩ := ih rest e2 t (List.mem_flatten.mpr ⟨l, hl, htl⟩)
          exact ⟨k, List.mem_cons_of_mem _ hk, hkmem⟩

theorem whereEq_mem_bounds (labels : Labels3) (cls : Nat) (t : Coord)
    (ht : t ∈ whereEq labels cls) :
    t.1 < labels.length ∧ t.2.1 < (labels.getD t.1 []).length ∧
      t.2.2 < ((labels.getD t.1 []).getD t.2.1 []).length := by
  simp only [whereEq, List.mem_flatten, List.mem_map, List.mem_range,
    List.mem_filterMap] at ht
  obtain ⟨l, ⟨b, hb, rfl⟩, hin⟩ := ht
  simp only [List.mem_flatten, List.mem_map, List.mem_range] at hin
  obtain ⟨l2, ⟨r, hr, rfl⟩, hin2⟩ := hin
  simp only [List.mem_filterMap, List.mem_range] at hin2
  obtain ⟨c, hc, hsome⟩ := hin2
  by_cases hcond : ((labels.getD b []).getD r []).getD c 0 = cls
  · rw [if_pos hcond] at hsome
    cases hsome
    exact ⟨hb, hr, hc⟩
  · rw [if_neg hcond] at hsome
    cases hsome

theorem getD_mem (l : List α) (i : Nat) (d : α) (h : i < l.length) : l.getD i d ∈ l := by
  rw [List.getD_eq_getElem l d h]
  exact List.getElem_mem h

theorem sum_map_const_nat (l : List α) (c : Nat) :
    (l.map (fun _ => c)).sum = l.length * c := by
  induction l with
  | nil => simp
  | cons a l ih => simp [ih, Nat.succ_mul, Nat.add_comm]

/-- C1: every coordinate produced by the uniform sampler
(`random_pixel_samples`, utils.py lines 124-138) and by the stratified
sampler (`stratified_pixel_samples`, utils.py lines 195-207), read back as
integer pixel indices, satisfies `0 ≤ row < h` and `0 ≤ col < w` for the
spatial dimensions `h`, `w` of the (possibly augmented/cropped) label
tensor, and its batch index is in range, so the label gather never
indexes out of bounds. -/
theorem claim1_sampler_coords_in_bounds (batchsize npix h w nclasses : Nat)
    (labels : Labels3)
    (hrect : ∀ img ∈ labels, img.length = h ∧ ∀ row ∈ img, row.length = w)
    (dx dy draw : Nat → Nat → Nat) :
    (∀ l, uniformSampleCoords batchsize npix h w dx dy = .ok l →
      ∀ t ∈ l, t.1 < batchsize ∧ t.2.1 < h ∧ t.2.2 < w)
  ∧ (∀ l, stratifiedIndices labels batchsize npix nclasses draw = .ok l →
      ∀ t ∈ l, t.1 < labels.length ∧ t.2.1 < h ∧ t.2.2 < w) := by
  constructor
  · intro l hl t ht
    unfold uniformSampleCoords at hl
    split_ifs at hl with h1 h2
    cases hl
    simp only [List.mem_flatMap, List.mem_map, List.mem_range] at ht
    obtain ⟨b, hb, p, hp, rfl⟩ := ht
    exact ⟨hb,
      lt_of_lt_of_le (Nat.mod_lt _ (Nat.pos_of_ne_zero h1)) (Nat.sub_le h 1),
      lt_of_lt_of_le (Nat.mod_lt _ (Nat.pos_of_ne_zero h2)) (Nat.sub_le w 1)⟩
  · intro l hl t ht
    unfold stratifiedIndices at hl
    cases e : drawClasses labels (batchsize * npix / nclasses) draw (List.range nclasses) with
    | error er => rw [e] at hl; cases hl
    | ok per =>
      rw [e] at hl
      dsimp only at hl
      split_ifs at hl
      cases hl
      obtain ⟨k, _, hmem⟩ := drawClasses_mem_pool _ _ _ _ _ e t ht
      obtain ⟨hb, hr, hc⟩ := whereEq_mem_bounds labels k t hmem
      obtain ⟨hlen, hrows⟩ := hrect _ (getD_mem labels t.1 [] hb)
      refine ⟨hb, ?_, ?_⟩
      · rwa [hlen] at hr
      · have hrow := hrows _ (getD_mem _ t.2.1 [] hr)
        rwa [hrow] at hc

theorem claim1_witness :
    (∀ img ∈ ([[[0, 1], [1, 0]]] : Labels3), img.length = 2 ∧ ∀ row ∈ img, row.length = 2)
  ∧ ((∀ l, uniformSampleCoords 1 2 2 2 (fun _ _ => 0) (fun _ _ => 0) = .ok l →
        ∀ t ∈ l, t.1 < 1 ∧ t.2.1 < 2 ∧ t.2.2 < 2)
    ∧ (∀ l, stratifiedIndices [[[0, 1], [1, 0]]] 1 2 2 (fun _ _ => 0) = .ok l →
        ∀ t ∈ l, t.1 < ([[[0, 1], [1, 0]]] : Labels3).length ∧ t.2.1 < 2 ∧ t.2.2 < 2)) :=
  ⟨by decide, claim1_sampler_coords_in_bounds 1 2 2 2 2 [[[0, 1], [1, 0]]] (by decide)
    (fun _ _ => 0) (fun _ _ => 0) (fun _ _ => 0)⟩

/-- C2 counterexample: with `batchsize = 1`, `npix = 1`, `nclasses = 2`
and a batch containing pixels of both classes (so every class pool is
nonempty), each class draws `int(1*1/2) = 0` coordinates and the
concatenated result has 0 rows, so the reshape to `(1, 1, 3)` fails:
the iteration errors instead of producing a coordinate set, refuting
the claim for arbitrary `B`, `P`, `K`. -/
theorem claim2_counterexample :
    stratifiedIndices [[[0, 1]]] 1 1 2 (fun _ _ => 0) = .error .reshapeMismatch := by
  decide

/-- C2 (amended): when additionally `nclasses` divides
`batchsize * npix`, each iteration of the stratified sampler draws
exactly `batchsize * npix / nclasses` coordinates per class from that
class's whole-batch pool (with replacement), concatenates the per-class
draws in class order, and the reshape to `(batchsize, npix, 3)`
succeeds.  Without the divisibility condition the concatenated draw has
`nclasses * (batchsize * npix / nclasses) < batchsize * npix` rows and
the reshape raises, as `claim2_counterexample` shows. -/
theorem claim2_stratified_quota_and_reshape (labels : Labels3)
    (batchsize npix nclasses : Nat) (draw : Nat → Nat → Nat)
    (hdvd : nclasses ∣ batchsize * npix)
    (hpools : ∀ k, k < nclasses → whereEq labels k ≠ []) :
    stratifiedIndices labels batchsize npix nclasses draw =
      .ok (((List.range nclasses).map (fun k =>
        choiceVals (whereEq labels k) (0, 0, 0) (batchsize * npix / nclasses)
          (draw k))).flatten)
  ∧ (∀ k, k < nclasses →
      (choiceVals (whereEq labels k) (0, 0, 0) (batchsize * npix / nclasses)
          (draw k)).length = batchsize * npix / nclasses
      ∧ ∀ t ∈ choiceVals (whereEq labels k) (0, 0, 0) (batchsize * npix / nclasses)
          (draw k), t ∈ whereEq labels k) := by
  have hdc := drawClasses_ok_of_pools labels (batchsize * npix / nclasses) draw
    (List.range nclasses) (fun k hk => hpools k (List.mem_range.mp hk))
  have hlen : (((List.range nclasses).map (fun k =>
      choiceVals (whereEq labels k) ((0, 0, 0) : Coord) (batchsize * npix / nclasses)
        (draw k))).flatten).length = batchsize * npix := by
    simp only [List.length_flatten, List.map_map, Function.comp_def, choiceVals_length,
      sum_map_const_nat, List.length_range]
    exact Nat.mul_div_cancel' hdvd
  refine ⟨?_, fun k hk => ⟨choiceVals_length _ _ _ _,
    choiceVals_mem _ _ _ _ (hpools k hk)⟩⟩
  unfold stratifiedIndices
  rw [hdc]
  dsimp only
  rw [if_pos hlen]

theorem claim2_witness :
    ((2 : Nat) ∣ 1 * 2 ∧ ∀ k, k < 2 → whereEq [[[0, 1]]] k ≠ [])
  ∧ (stratifiedIndices [[[0, 1]]] 1 2 2 (fun _ _ => 0) =
      .ok (((List.range 2).map (fun k =>
        choiceVals (whereEq [[[0, 1]]] k) (0, 0, 0) (1 * 2 / 2) ((fun _ _ => 0) k))).flatten)
    ∧ (∀ k, k < 2 →
        (choiceVals (whereEq [[[0, 1]]] k) (0, 0, 0) (1 * 2 / 2)
            ((fun _ _ => 0) k)).length = 1 * 2 / 2
        ∧ ∀ t ∈ choiceVals (whereEq [[[0, 1]]] k) (0, 0, 0) (1 * 2 / 2)
            ((fun _ _ => 0) k), t ∈ whereEq [[[0, 1]]] k)) :=
  ⟨⟨by decide, by decide⟩,
    claim2_stratified_quota_and_reshape [[[0, 1]]] 1 2 2 (fun _ _ => 0)
      (by decide) (by decide)⟩

/-- C5: if on some iteration the stratified sampler encounters a class
`k` whose whole-batch pixel pool is empty while the per-class draw count
is nonzero, the iteration fails with the distinct empty-pool error
raised by `np.random.choice` (a different constructor from any
reshape or range failure), and since the result is an error no
coordinate set, hence no batch, is produced. -/
theorem claim5_empty_pool_error (labels : Labels3) (batchsize npix nclasses k : Nat)
    (draw : Nat → Nat → Nat) (hk : k < nclasses) (hempty : whereEq labels k = [])
    (hcnt : batchsize * npix / nclasses ≠ 0) :
    stratifiedIndices labels batchsize npix nclasses draw = .error .emptyPool := by
  unfold stratifiedIndices
  rw [drawClasses_err_of_empty labels _ draw (List.range nclasses) k
    (List.mem_range.mpr hk) hempty hcnt]

theorem claim5_witness :
    ((1 : Nat) < 2 ∧ whereEq [[[0, 0]]] 1 = [] ∧ (1 * 2 / 2 : Nat) ≠ 0)
  ∧ stratifiedIndices [[[0, 0]]] 1 2 2 (fun _ _ => 0) = .error .emptyPool :=
  ⟨⟨by decide, by decide, by decide⟩,
    claim5_empty_pool_error [[[0, 0]]] 1 2 2 1 (fun _ _ => 0) (by decide) (by decide)
      (by decide)⟩

/-- C6 is refuted by the code: `random_pixel_samples` draws row indices
with `np.random.randint(shape[1] - 1)` and column indices with
`np.random.randint(shape[2] - 1)` (utils.py lines 128-129), whose
supports are `[0, h-2]` and `[0, w-2]`.  On a 2 by 2 image the only
coordinate any draw can produce is `(0, 0, 0)`: row index 1 and column
index 1, though valid pixels, are never sampled, contradicting the
claim that every index in `[0, h)` and `[0, w)` is a possible draw. -/
theorem claim6_last_row_col_unreachable :
    ∀ dx dy : Nat → Nat → Nat,
      uniformSampleCoords 1 1 2 2 dx dy = .ok [(0, 0, 0)] := by
  intro dx dy
  simp [uniformSampleCoords, List.range_succ, Nat.mod_one]

/-- Confidence specification accepted by `smooth_labels`: a Python float
or a numpy `nclasses` by `nclasses` array. -/
inductive Confidence where
  | scalar (c : ℚ)
  | matrix (m : List (List ℚ))

/-- Embedding of the guard `type(confidence) is np.array` (utils.py line
160).  `np.array` is a factory function, not a class: the type of a numpy
matrix is `np.ndarray`, and no Python object's `type` is the function
`np.array`, so this comparison evaluates to `False` for every possible
argument and the matrix branch of `smooth_labels` is unreachable. -/
def typeIsNpArray : Confidence → Bool := fun _ => false

/-- One pass of the loop body in the matrix branch of `smooth_labels`
(utils.py lines 168-169): every row with a nonzero entry in column `cls`
is overwritten by row `cls` of the confidence matrix. -/
def smoothMatrixPass (rows : List (List ℚ)) (conf : List (List ℚ)) (cls : Nat) :
    List (List ℚ) :=
  rows.map (fun row => if row.getD cls 0 ≠ 0 then conf.getD cls [] else row)

/-- Embedding of `smooth_labels` (utils.py lines 150-170) on a
`(B*P, nclasses)` row matrix.  `nclasses = labels.shape[1]` is the length
of the first row.  The branch `type(confidence) is float` is the scalar
constructor; in that branch the code computes `labels * (1 - epsilon)`
followed by `+= epsilon / nclasses` with `epsilon = 1 - confidence`.  The
matrix branch is guarded by `type(confidence) is np.array`, which is
`False` for every argument (see `typeIsNpArray`), so a matrix confidence
falls through and the labels are returned unchanged. -/
def smooth_labels (labels : List (List ℚ)) : Confidence → List (List ℚ)
  | .scalar c =>
      labels.map (fun row => row.map (fun v =>
        v * (1 - (1 - c)) + (1 - c) / ((labels.headD []).length : ℚ)))
  | .matrix m =>
      if typeIsNpArray (.matrix m) then
        (List.range (labels.headD []).length).foldl
          (fun acc cls => smoothMatrixPass acc m cls) labels
      else labels

/-- One-hot row of length `K` with the single 1 at class `k`
(`to_categorical`). -/
def oneHot (K k : Nat) : List ℚ :=
  (List.range K).map (fun i => if i = k then 1 else 0)

theorem sum_map_const_rat (l : List α) (c : ℚ) :
    (l.map (fun _ => c)).sum = l.length * c := by
  induction l with
  | nil => simp
  | cons a l ih =>
    simp [ih]
    ring

theorem sum_range_ite (K k : Nat) (a b : ℚ) (hk : k < K) :
    ((List.range K).map (fun i => if i = k then a else b)).sum
      = a + ((K : ℚ) - 1) * b := by
  induction K with
  | zero => exact absurd hk (Nat.not_lt_zero k)
  | succ n ih =>
    rw [List.range_succ, List.map_append, List.sum_append]
    by_cases hkn : k = n
    · subst hkn
      have hpre : (List.range k).map (fun i => if i = k then a else b)
          = (List.range k).map (fun _ => b) :=
        List.map_congr_left (fun i hi =>
          if_neg (Nat.ne_of_lt (List.mem_range.mp hi)))
      rw [hpre, sum_map_const_rat, List.length_range]
      simp only [List.map_cons, List.map_nil, List.sum_cons, List.sum_nil, if_pos rfl]
      push_cast
      ring
    · have hklt : k < n := Nat.lt_of_le_of_ne (Nat.lt_succ_iff.mp hk) hkn
      rw [ih hklt]
      simp only [List.map_cons, List.map_nil, List.sum_cons, List.sum_nil,
        if_neg (Ne.symm hkn)]
      push_cast
      ring

/-- C3 is refuted by the code: the matrix branch of `smooth_labels` is
guarded by `type(confidence) is np.array`, which is `False` for every
argument because `np.array` is a function and a numpy array's type is
`np.ndarray`.  With a 2-class row-stochastic confidence matrix and
one-hot inputs, `smooth_labels` returns the rows unchanged instead of
replacing the row of a class-`k` sample by confidence row `k`, even
though the code's own comment (utils.py lines 161-167) documents the
replacement behavior. -/
theorem claim3_matrix_confidence_ignored :
    smooth_labels [[1, 0], [0, 1]] (.matrix [[7/10, 3/10], [2/10, 8/10]])
      = [[1, 0], [0, 1]]
  ∧ smooth_labels [[1, 0], [0, 1]] (.matrix [[7/10, 3/10], [2/10, 8/10]])
      ≠ [[7/10, 3/10], [2/10, 8/10]] := by
  have h0 : smooth_labels [[1, 0], [0, 1]] (.matrix [[7/10, 3/10], [2/10, 8/10]])
      = [[1, 0], [0, 1]] := rfl
  refine ⟨h0, fun h => ?_⟩
  rw [h0] at h
  simp only [List.cons.injEq] at h
  norm_num at h

/-- C4: on a matrix of one-hot rows with `K` classes and a scalar
confidence `c` in `(0, 1]`, `smooth_labels` performs uniform additive
smoothing: every entry `x` becomes `c * x + (1 - c)/K`, so the
true-class entry is `c + (1 - c)/K`, every other entry is `(1 - c)/K`,
and every output row sums exactly to 1. -/
theorem claim4_scalar_smoothing (ks : List Nat) (K : Nat) (c : ℚ)
    (hK : 0 < K) (hks : ∀ k ∈ ks, k < K) (hc0 : 0 < c) (hc1 : c ≤ 1) :
    smooth_labels (ks.map (oneHot K)) (.scalar c)
      = ks.map (fun k => (List.range K).map (fun i =>
          if i = k then c + (1 - c) / (K : ℚ) else (1 - c) / (K : ℚ)))
  ∧ ∀ row ∈ smooth_labels (ks.map (oneHot K)) (.scalar c), row.sum = 1 := by
  cases ks with
  | nil => exact ⟨rfl, fun row hrow => absurd hrow (List.not_mem_nil row)⟩
  | cons k0 t =>
    have hhead : (((k0 :: t).map (oneHot K)).headD []).length = K := by
      simp [oneHot]
    have heq : smooth_labels ((k0 :: t).map (oneHot K)) (.scalar c)
        = (k0 :: t).map (fun k => (List.range K).map (fun i =>
            if i = k then c + (1 - c) / (K : ℚ) else (1 - c) / (K : ℚ))) := by
      simp only [smooth_labels, hhead, List.map_map]
      apply List.map_congr_left
      intro k _
      simp only [Function.comp_apply, oneHot, List.map_map]
      apply List.map_congr_left
      intro i _
      simp only [Function.comp_apply]
      by_cases hik : i = k
      · rw [if_pos hik, if_pos hik]
        ring
      · rw [if_neg hik, if_neg hik]
        ring
    refine ⟨heq, ?_⟩
    intro row hrow
    rw [heq] at hrow
    obtain ⟨k, hkmem, rfl⟩ := List.mem_map.mp hrow
    rw [sum_range_ite K k _ _ (hks k hkmem)]
    have hKQ : (K : ℚ) ≠ 0 := Nat.cast_ne_zero.mpr hK.ne'
    field_simp
    ring

theorem claim4_witness :
    ((0 : Nat) < 2 ∧ (∀ k ∈ [1], k < 2) ∧ (0 : ℚ) < 1/2 ∧ (1/2 : ℚ) ≤ 1)
  ∧ (smooth_labels ([1].map (oneHot 2)) (.scalar (1/2))
      = [1].map (fun k => (List.range 2).map (fun i =>
          if i = k then 1/2 + (1 - 1/2) / (2 : ℚ) else (1 - 1/2) / (2 : ℚ)))
    ∧ ∀ row ∈ smooth_labels ([1].map (oneHot 2)) (.scalar (1/2)), row.sum = 1) :=
  ⟨⟨by decide, by decide, by norm_num, by norm_num⟩,
    claim4_scalar_smoothing [1] 2 (1/2) (by decide) (by decide) (by norm_num)
      (by norm_num)⟩

/-- Value of `np.min(x)` on a nonempty flattened image (0 on the empty
image, which numpy rejects). -/
def listMinD (l : List ℚ) : ℚ :=
  match l with
  | [] => 0
  | v :: t => t.foldl min v

/-- Value of `np.max(x)` on a nonempty flattened image. -/
def listMaxD (l : List ℚ) : ℚ :=
  match l with
  | [] => 0
  | v :: t => t.foldl max v

/-- Embedding of `np.clip(v, lo, hi)` for `lo ≤ hi`. -/
def clip (v lo hi : ℚ) : ℚ := min (max v lo) hi

/-- The offset amplitude computed on utils.py line 14, exactly as
written: `intensity = intensity_fraction * max_x - min_x`.  Python
precedence makes this `(intensity_fraction * max_x) - min_x`, not
`intensity_fraction * (max_x - min_x)`. -/
def intensityAmplitude (x : List ℚ) (intensity_fraction : ℚ) : ℚ :=
  intensity_fraction * listMaxD x - listMinD x

/-- Embedding of `random_intensity_shift` (utils.py lines 12-15) for a
given offset `e` drawn by `np.random.uniform(-intensity, intensity)`:
the result is `np.clip(x + e, min_x, max_x)` applied elementwise. -/
def random_intensity_shift (x : List ℚ) (e : ℚ) : List ℚ :=
  x.map (fun v => clip (v + e) (listMinD x) (listMaxD x))

/-- The support constraint of the draw on utils.py line 15:
`np.random.uniform(-intensity, intensity)` only produces offsets of
magnitude at most `|intensity|` (numpy accepts the bounds in either
order). -/
def validShift (x : List ℚ) (intensity_fraction e : ℚ) : Prop :=
  |e| ≤ |intensityAmplitude x intensity_fraction|

/-- C7 is refuted by the code: for the two-pixel image `[-1, 1]` and
intensity fraction `1/2`, line 14 computes the amplitude
`1/2 * max - min = 1/2 * 1 - (-1) = 3/2` instead of the claimed
`1/2 * (max - min) = 1`, so the offset `3/2` is drawable yet exceeds the
claimed magnitude bound `f * (max(x) - min(x))`. -/
theorem claim7_intensity_bound_exceeded :
    intensityAmplitude [-1, 1] (1/2) = 3/2
  ∧ validShift [-1, 1] (1/2) (3/2)
  ∧ ¬ (|(3/2 : ℚ)| ≤ (1/2 : ℚ) * (listMaxD [-1, 1] - listMinD [-1, 1])) := by
  have hmax : listMaxD [-1, 1] = 1 := by
    show max (-1 : ℚ) 1 = 1
    exact max_eq_right (by norm_num)
  have hmin : listMinD [-1, 1] = -1 := by
    show min (-1 : ℚ) 1 = -1
    exact min_eq_left (by norm_num)
  have hamp : intensityAmplitude [-1, 1] (1/2) = 3/2 := by
    unfold intensityAmplitude
    rw [hmax, hmin]
    norm_num
  refine ⟨hamp, ?_, ?_⟩
  · show |(3/2 : ℚ)| ≤ |intensityAmplitude [-1, 1] (1/2)|
    rw [hamp]
  · rw [hmax, hmin, abs_of_pos (show (0 : ℚ) < 3/2 by norm_num)]
    norm_num

/-- The offset range of the final crop step of `augment` (utils.py lines
48-51): `range(max(1, ww - w))`, where `ww` is the transformed spatial
size and `w` the original one. -/
def cropOffsetPool (ww w : Int) : List Int :=
  (List.range (max 1 (ww - w)).toNat).map (fun i => (i : Int))

/-- Embedding of a single-value `np.random.choice(pool)`. -/
def npChoice1 (pool : List α) (d : α) (draw : Nat) : Except SampErr α :=
  if pool.length = 0 then .error .emptyPool
  else .ok (pool.getD (draw % pool.length) d)

/-- C9: whenever rotation/zoom leaves the transformed image no larger
than the original in a dimension (`ww ≤ w`), the crop-offset range
`range(max(1, ww - w))` collapses to the single choice `[0]`, and the
offset draw succeeds with offset 0 for every random value - no
empty-range failure occurs. -/
theorem claim9_offset_draw_resolves (ww w : Int) (hww : ww ≤ w) :
    cropOffsetPool ww w = [0]
  ∧ ∀ d : Nat, npChoice1 (cropOffsetPool ww w) 0 d = .ok 0 := by
  have hmax : max 1 (ww - w) = 1 := max_eq_left (by omega)
  have hpool : cropOffsetPool ww w = [0] := by
    unfold cropOffsetPool
    rw [hmax]
    rfl
  refine ⟨hpool, fun d => ?_⟩
  rw [hpool]
  unfold npChoice1
  simp [Nat.mod_one]

theorem claim9_witness :
    ((2 : Int) ≤ 3)
  ∧ (cropOffsetPool 2 3 = [0]
    ∧ ∀ d : Nat, npChoice1 (cropOffsetPool 2 3) 0 d = .ok 0) :=
  ⟨by decide, claim9_offset_draw_resolves 2 3 (by decide)⟩

/-- A single image, indexed row, column, channel (shape `(H, W, C)`). -/
abbrev Image3 := List (List (List ℚ))

/-- A single label image, indexed row, column (shape `(H, W)`). -/
abbrev Label2 := List (List Nat)

/-- The window `m[y:y+S, x:x+S]` of a row-indexed 2-D structure, as in
the slice assignments of `random_crop` (utils.py lines 74-75). -/
def crop2 (m : List (List α)) (y x S : Nat) : List (List α) :=
  ((m.drop y).take S).map (fun row => (row.drop x).take S)

theorem getD_map_range (cnt : Nat) (f : Nat → α) (d : α) (idx : Nat) (h : idx < cnt) :
    ((List.range cnt).map f).getD idx d = f idx := by
  rw [List.getD_eq_getElem?_getD, List.getElem?_map, List.getElem?_range h]
  rfl

theorem choiceVals_range_getD (n cnt : Nat) (draw : Nat → Nat) (idx : Nat)
    (hidx : idx < cnt) (hn : n ≠ 0) :
    (choiceVals (List.range n) 0 cnt draw).getD idx 0 = draw idx % n := by
  unfold choiceVals
  rw [getD_map_range cnt _ 0 idx hidx, List.length_range, List.getD_eq_getElem?_getD,
    List.getElem?_range (Nat.mod_lt _ (Nat.pos_of_ne_zero hn))]
  rfl

theorem headD_mem (l : List α) (d : α) (h : l ≠ []) : l.headD d ∈ l := by
  cases l with
  | nil => exact absurd rfl h
  | cons a t => exact List.mem_cons_self a t

theorem crop2_length (m : List (List α)) (y x S : Nat) (h : y + S ≤ m.length) :
    (crop2 m y x S).length = S := by
  unfold crop2
  rw [List.length_map, List.length_take, List.length_drop]
  exact min_eq_left (by omega)

theorem crop2_row_shape (m : List (List α)) (y x S w : Nat)
    (hrows : ∀ row ∈ m, row.length = w) (hxw : x + S ≤ w) :
    ∀ r ∈ crop2 m y x S, r.length = S := by
  intro r hr
  unfold crop2 at hr
  obtain ⟨row, hrowmem, rfl⟩ := List.mem_map.mp hr
  have hm : row ∈ m := List.drop_subset y m (List.take_subset S (m.drop y) hrowmem)
  rw [List.length_take, List.length_drop, hrows row hm]
  exact min_eq_left (by omega)

theorem crop2_cell_mem (m : List (List α)) (y x S : Nat) :
    ∀ r ∈ crop2 m y x S, ∀ v ∈ r, ∃ row ∈ m, v ∈ row := by
  intro r hr v hv
  unfold crop2 at hr
  obtain ⟨row, hrowmem, rfl⟩ := List.mem_map.mp hr
  exact ⟨row, List.drop_subset y m (List.take_subset S (m.drop y) hrowmem),
    List.drop_subset x row (List.take_subset S (row.drop x) hv)⟩

theorem crop2_getD (m : List (List α)) (y x S i j : Nat) (d : α)
    (hi : i < S) (hj : j < S) :
    ((crop2 m y x S).getD i []).getD j d = (m.getD (y + i) []).getD (x + j) d := by
  have h1 : (crop2 m y x S)[i]?
      = Option.map (fun row => (row.drop x).take S) m[y + i]? := by
    unfold crop2
    rw [List.getElem?_map, List.getElem?_take, if_pos hi, List.getElem?_drop]
  cases hrow : m[y + i]? with
  | none =>
    rw [List.getD_eq_getElem?_getD (crop2 m y x S), h1, hrow,
      List.getD_eq_getElem?_getD m, hrow]
    simp
  | some row =>
    rw [List.getD_eq_getElem?_getD (crop2 m y x S), h1, hrow,
      List.getD_eq_getElem?_getD m, hrow]
    simp only [Option.map_some', Option.getD_some]
    rw [List.getD_eq_getElem?_getD ((row.drop x).take S), List.getElem?_take, if_pos hj,
      List.getElem?_drop, ← List.getD_eq_getElem?_getD row]

/-- Embedding of `random_crop` (utils.py lines 59-77): reads
`b, h, w, c = images.shape`, draws `b` horizontal offsets from
`range(w - cropsize)` and `b` vertical offsets from
`range(h - cropsize)` (both via `np.random.choice`, which raises on an
empty range), and copies the window at the per-image offset from both
the image and the label batch. -/
def random_crop (images : List Image3) (labels : List Label2) (cropsize : Nat)
    (dxs dys : Nat → Nat) : Except SampErr (List Image3 × List Label2) :=
  match npChoice (List.range (((images.headD []).headD []).length - cropsize)) 0
      images.length dxs,
    npChoice (List.range ((images.headD []).length - cropsize)) 0
      images.length dys with
  | .ok xx, .ok yy =>
    .ok ((List.range images.length).map (fun idx =>
        crop2 (images.getD idx []) (yy.getD idx 0) (xx.getD idx 0) cropsize),
      (List.range images.length).map (fun idx =>
        crop2 (labels.getD idx []) (yy.getD idx 0) (xx.getD idx 0) cropsize))
  | .error e, _ => .error e
  | _, .error e => .error e

/-- C8 counterexample: for a single 2 by 2 by 1 image batch and
`cropsize = 2 = min(H, W)`, the offset pool `range(w - cropsize)` is
`range(0)`, and `np.random.choice` on an empty sequence raises, so
`random_crop` fails although the claim asserts success for every
`S ≤ min(H, W)`. -/
theorem claim8_counterexample :
    random_crop [[[[1], [2]], [[3], [4]]]] [[[0, 1], [2, 3]]] 2
      (fun _ => 0) (fun _ => 0) = .error .emptyPool := rfl

/-- C8 (amended): for every image batch `(b, h, w, cc)` and label batch
`(b, h, w)` with `b > 0` and a square crop size strictly below both
spatial dimensions (`cropsize < h` and `cropsize < w`; at
`cropsize = min(h, w)` the offset pool `range(0)` is empty and the draw
raises, see `claim8_counterexample`), `random_crop` succeeds, returns
batches of shape `(b, cropsize, cropsize, cc)` and
`(b, cropsize, cropsize)`, and for each image the identical window at
the per-image offset `(dys idx mod (h - cropsize), dxs idx mod (w - cropsize))`
is copied from the image and from the label. -/
theorem claim8_random_crop_correct (images : List Image3) (labels : List Label2)
    (cropsize b h w cc : Nat) (dxs dys : Nat → Nat)
    (hb : images.length = b) (hlb : labels.length = b) (hb0 : 0 < b)
    (himg : ∀ img ∈ images, img.length = h ∧ ∀ row ∈ img,
        row.length = w ∧ ∀ px ∈ row, px.length = cc)
    (hlab : ∀ lab ∈ labels, lab.length = h ∧ ∀ row ∈ lab, row.length = w)
    (hSh : cropsize < h) (hSw : cropsize < w) :
    ∃ I L, random_crop images labels cropsize dxs dys = .ok (I, L)
      ∧ I.length = b ∧ L.length = b
      ∧ (∀ img ∈ I, img.length = cropsize ∧ ∀ row ∈ img,
          row.length = cropsize ∧ ∀ px ∈ row, px.length = cc)
      ∧ (∀ lab ∈ L, lab.length = cropsize ∧ ∀ row ∈ lab, row.length = cropsize)
      ∧ (∀ idx, idx < b → ∀ i, i < cropsize → ∀ j, j < cropsize →
          ((I.getD idx []).getD i []).getD j []
            = ((images.getD idx []).getD (dys idx % (h - cropsize) + i) []).getD
                (dxs idx % (w - cropsize) + j) []
          ∧ ((L.getD idx []).getD i []).getD j 0
            = ((labels.getD idx []).getD (dys idx % (h - cropsize) + i) []).getD
                (dxs idx % (w - cropsize) + j) 0) := by
  have himgs_ne : images ≠ [] := by
    intro he
    rw [he] at hb
    simp at hb
    omega
  have hhead := himg (images.headD []) (headD_mem images [] himgs_ne)
  have hh : (images.headD []).length = h := hhead.1
  have hw : ((images.headD []).headD []).length = w := by
    have hrow_ne : images.headD [] ≠ [] := by
      intro he
      rw [he] at hh
      simp at hh
      omega
    exact (hhead.2 ((images.headD []).headD []) (headD_mem _ [] hrow_ne)).1
  have hpoolx : List.range (w - cropsize) ≠ [] := by
    simp only [ne_eq, List.range_eq_nil]
    omega
  have hpooly : List.range (h - cropsize) ≠ [] := by
    simp only [ne_eq, List.range_eq_nil]
    omega
  have hxx : npChoice (List.range (((images.headD []).headD []).length - cropsize)) 0
      images.length dxs = .ok (choiceVals (List.range (w - cropsize)) 0 b dxs) := by
    rw [hw, hb]
    exact npChoice_eq_ok _ _ _ _ hpoolx
  have hyy : npChoice (List.range ((images.headD []).length - cropsize)) 0
      images.length dys = .ok (choiceVals (List.range (h - cropsize)) 0 b dys) := by
    rw [hh, hb]
    exact npChoice_eq_ok _ _ _ _ hpooly
  have hmapI : (List.range b).map (fun idx => crop2 (images.getD idx [])
        ((choiceVals (List.range (h - cropsize)) 0 b dys).getD idx 0)
        ((choiceVals (List.range (w - cropsize)) 0 b dxs).getD idx 0) cropsize)
      = (List.range b).map (fun idx => crop2 (images.getD idx [])
        (dys idx % (h - cropsize)) (dxs idx % (w - cropsize)) cropsize) := by
    apply List.map_congr_left
    intro idx hidx
    rw [choiceVals_range_getD _ _ _ _ (List.mem_range.mp hidx) (by omega),
      choiceVals_range_getD _ _ _ _ (List.mem_range.mp hidx) (by omega)]
  have hmapL : (List.range b).map (fun idx => crop2 (labels.getD idx [])
        ((choiceVals (List.range (h - cropsize)) 0 b dys).getD idx 0)
        ((choiceVals (List.range (w - cropsize)) 0 b dxs).getD idx 0) cropsize)
      = (List.range b).map (fun idx => crop2 (labels.getD idx [])
        (dys idx % (h - cropsize)) (dxs idx % (w - cropsize)) cropsize) := by
    apply List.map_congr_left
    intro idx hidx
    rw [choiceVals_range_getD _ _ _ _ (List.mem_range.mp hidx) (by omega),
      choiceVals_range_getD _ _ _ _ (List.mem_range.mp hidx) (by omega)]
  have hrc : random_crop images labels cropsize dxs dys
      = .ok ((List.range b).map (fun idx => crop2 (images.getD idx [])
          (dys idx % (h - cropsize)) (dxs idx % (w - cropsize)) cropsize),
        (List.range b).map (fun idx => crop2 (labels.getD idx [])
          (dys idx % (h - cropsize)) (dxs idx % (w - cropsize)) cropsize)) := by
    unfold random_crop
    rw [hxx, hyy]
    dsimp only
    rw [hb, hmapI, hmapL]
  refine ⟨_, _, hrc, by simp, by simp, ?_, ?_, ?_⟩
  · intro img himgmem
    obtain ⟨idx, hidx, rfl⟩ := List.mem_map.mp himgmem
    have hidxb : idx < b := List.mem_range.mp hidx
    have hsrc : images.getD idx [] ∈ images := getD_mem images idx [] (by omega)
    obtain ⟨hlen, hrows⟩ := himg _ hsrc
    have hy : dys idx % (h - cropsize) < h - cropsize := Nat.mod_lt _ (by omega)
    have hx : dxs idx % (w - cropsize) < w - cropsize := Nat.mod_lt _ (by omega)
    refine ⟨crop2_length _ _ _ _ (by omega), ?_⟩
    intro row hrowmem
    refine ⟨crop2_row_shape _ _ _ _ w (fun r hr => (hrows r hr).1) (by omega) row hrowmem, ?_⟩
    intro px hpx
    obtain ⟨srcrow, hsrcrow, hpxmem⟩ := crop2_cell_mem _ _ _ _ row hrowmem px hpx
    exact (hrows srcrow hsrcrow).2 px hpxmem
  · intro lab hlabmem
    obtain ⟨idx, hidx, rfl⟩ := List.mem_map.mp hlabmem
    have hidxb : idx < b := List.mem_range.mp hidx
    have hsrc : labels.getD idx [] ∈ labels := getD_mem labels idx [] (by omega)
    obtain ⟨hlen, hrows⟩ := hlab _ hsrc
    have hy : dys idx % (h - cropsize) < h - cropsize := Nat.mod_lt _ (by omega)
    have hx : dxs idx % (w - cropsize) < w - cropsize := Nat.mod_lt _ (by omega)
    exact ⟨crop2_length _ _ _ _ (by omega),
      crop2_row_shape _ _ _ _ w hrows (by omega)⟩
  · intro idx hidx i hi j hj
    constructor
    · rw [getD_map_range b _ [] idx hidx]
      exact crop2_getD _ _ _ _ _ _ _ hi hj
    · rw [getD_map_range b _ [] idx hidx]
      exact crop2_getD _ _ _ _ _ _ _ hi hj

theorem claim8_witness :
    (([[[[5], [6]], [[7], [8]]]] : List Image3).length = 1
      ∧ ([[[0, 1], [2, 3]]] : List Label2).length = 1 ∧ (0 : Nat) < 1
      ∧ (∀ img ∈ ([[[[5], [6]], [[7], [8]]]] : List Image3), img.length = 2
          ∧ ∀ row ∈ img, row.length = 2 ∧ ∀ px ∈ row, px.length = 1)
      ∧ (∀ lab ∈ ([[[0, 1], [2, 3]]] : List Label2), lab.length = 2
          ∧ ∀ row ∈ lab, row.length = 2)
      ∧ (1 : Nat) < 2 ∧ (1 : Nat) < 2)
  ∧ (∃ I L, random_crop [[[[5], [6]], [[7], [8]]]] [[[0, 1], [2, 3]]] 1
        (fun _ => 0) (fun _ => 0) = .ok (I, L)
      ∧ I.length = 1 ∧ L.length = 1
      ∧ (∀ img ∈ I, img.length = 1 ∧ ∀ row ∈ img,
          row.length = 1 ∧ ∀ px ∈ row, px.length = 1)
      ∧ (∀ lab ∈ L, lab.length = 1 ∧ ∀ row ∈ lab, row.length = 1)
      ∧ (∀ idx, idx < 1 → ∀ i, i < 1 → ∀ j, j < 1 →
          ((I.getD idx []).getD i []).getD j []
            = ((([[[[5], [6]], [[7], [8]]]] : List Image3).getD idx []).getD
                ((fun _ => 0) idx % (2 - 1) + i) []).getD
                ((fun _ => 0) idx % (2 - 1) + j) []
          ∧ ((L.getD idx []).getD i []).getD j 0
            = ((([[[0, 1], [2, 3]]] : List Label2).getD idx []).getD
                ((fun _ => 0) idx % (2 - 1) + i) []).getD
                ((fun _ => 0) idx % (2 - 1) + j) 0)) :=
  ⟨⟨by decide, by decide, by decide, by decide, by decide, by decide, by decide⟩,
    claim8_random_crop_correct [[[[5], [6]], [[7], [8]]]] [[[0, 1], [2, 3]]] 1 1 2 2 1
      (fun _ => 0) (fun _ => 0) (by decide) (by decide) (by decide) (by decide)
      (by decide) (by decide) (by decide)⟩

/-- A store of numpy arrays addressed by identity: `mem i` is the value
of the array object with id `i`, and ids at or above `next` are unused.
This makes aliasing explicit so that the in-place writes of `augment`
can be shown to miss the caller's arrays. -/
structure Heap (α : Type) where
  mem : Nat → α
  next : Nat

/-- Allocation of a fresh array object holding `v` (what numpy does for
the result of advanced indexing such as `images[im_idx]`, and for
`np.zeros`). -/
def halloc (h : Heap α) (v : α) : Heap α × Nat :=
  (⟨fun j => if j = h.next then v else h.mem j, h.next + 1⟩, h.next)

/-- In-place overwrite of the array object with id `i` (what the slice
assignments `I[idx] = ...` and `L[idx] = ...` inside `augment` do to
their argument arrays). -/
def hwrite (h : Heap α) (i : Nat) (v : α) : Heap α :=
  ⟨fun j => if j = i then v else h.mem j, h.next⟩

/-- One iteration of the body shared by `random_pixel_samples` (utils.py
lines 111-148) and `stratified_pixel_samples` (lines 182-217), tracked
at the level of array objects.  `sliceImg`/`sliceLab` compute the
contents of `images[im_idx]` and `labels[im_idx]`; numpy advanced
indexing with an index array returns a fresh copy, so both are
allocations.  When augmentation is active, `augment` computes new
contents for the pair and writes them in place into those two fresh
objects (its loop assigns `I[idx] = ...`, `L[idx] = ...`).  When a crop
size is configured, `random_crop` preallocates two `np.zeros` outputs,
again fresh objects.  The coordinate array and the gathered pixel
labels are likewise freshly allocated from reads.  Returns the final
heap and the ids of the yielded sample-image, coordinate and
pixel-label arrays. -/
def generatorStep (h0 : Heap α) (imgId labId : Nat) (sliceImg sliceLab : α → α)
    (augmentPair : α → α → α × α) (doAug : Bool) (cropPair : α → α → α × α)
    (doCrop : Bool) (coordsOf : α → α) (gatherOf : α → α → α) :
    Heap α × (Nat × Nat × Nat) :=
  let p1 := halloc h0 (sliceImg (h0.mem imgId))
  let p2 := halloc p1.1 (sliceLab (p1.1.mem labId))
  let h3 := if doAug then
      let a := augmentPair (p2.1.mem p1.2) (p2.1.mem p2.2)
      hwrite (hwrite p2.1 p1.2 a.1) p2.2 a.2
    else p2.1
  let step4 := if doCrop then
      let c := cropPair (h3.mem p1.2) (h3.mem p2.2)
      let q1 := halloc h3 c.1
      let q2 := halloc q1.1 c.2
      (q2.1, q1.2, q2.2)
    else (h3, p1.2, p2.2)
  let p5 := halloc step4.1 (coordsOf (step4.1.mem step4.2.1))
  let p6 := halloc p5.1 (gatherOf (p5.1.mem p5.2) (p5.1.mem step4.2.2))
  (p6.1, step4.2.1, p5.2, p6.2)

theorem halloc_mem_lt (h : Heap α) (v : α) (j : Nat) (hj : j < h.next) :
    (halloc h v).1.mem j = h.mem j := by
  unfold halloc
  exact if_neg (by omega)

theorem halloc_next (h : Heap α) (v : α) : (halloc h v).1.next = h.next + 1 := rfl

theorem halloc_id (h : Heap α) (v : α) : (halloc h v).2 = h.next := rfl

theorem hwrite_mem_ne (h : Heap α) (i : Nat) (v : α) (j : Nat) (hj : j ≠ i) :
    (hwrite h i v).mem j = h.mem j := by
  unfold hwrite
  exact if_neg hj

theorem hwrite_next (h : Heap α) (i : Nat) (v : α) : (hwrite h i v).next = h.next := rfl

/-- C10: every array object that existed before a generator iteration -
in particular the caller-supplied `images` and `labels` arrays - holds
exactly its old contents afterwards, for any combination of
augmentation and cropping: the iteration only writes into the fresh
copies produced by advanced indexing and into freshly allocated
outputs. -/
theorem claim10_caller_arrays_preserved (h0 : Heap α) (imgId labId : Nat)
    (sliceImg sliceLab : α → α) (augmentPair : α → α → α × α) (doAug : Bool)
    (cropPair : α → α → α × α) (doCrop : Bool) (coordsOf : α → α)
    (gatherOf : α → α → α) (hi : imgId < h0.next) (hl : labId < h0.next) :
    (generatorStep h0 imgId labId sliceImg sliceLab augmentPair doAug cropPair
        doCrop coordsOf gatherOf).1.mem imgId = h0.mem imgId
  ∧ (generatorStep h0 imgId labId sliceImg sliceLab augmentPair doAug cropPair
        doCrop coordsOf gatherOf).1.mem labId = h0.mem labId := by
  have key : ∀ j, j < h0.next →
      (generatorStep h0 imgId labId sliceImg sliceLab augmentPair doAug cropPair
        doCrop coordsOf gatherOf).1.mem j = h0.mem j := by
    intro j hj
    unfold generatorStep
    cases doAug <;> cases doCrop <;>
      simp only [Bool.false_eq_true, if_true, if_false, halloc_mem_lt, halloc_next,
        halloc_id, hwrite_mem_ne, hwrite_next] <;>
      simp only [halloc, hwrite] <;>
      repeat rw [if_neg (by omega)]
  exact ⟨key imgId hi, key labId hl⟩

theorem claim10_witness :
    ((0 : Nat) < (⟨fun i => i, 2⟩ : Heap Nat).next
      ∧ (1 : Nat) < (⟨fun i => i, 2⟩ : Heap Nat).next)
  ∧ ((generatorStep (⟨fun i => i, 2⟩ : Heap Nat) 0 1 (fun a => a + 1) (fun a => a + 2)
        (fun a b => (a * 2, b * 2)) true (fun a b => (a + b, a * b)) true
        (fun a => a) (fun a b => a + b)).1.mem 0 = (⟨fun i => i, 2⟩ : Heap Nat).mem 0
    ∧ (generatorStep (⟨fun i => i, 2⟩ : Heap Nat) 0 1 (fun a => a + 1) (fun a => a + 2)
        (fun a b => (a * 2, b * 2)) true (fun a b => (a + b, a * b)) true
        (fun a => a) (fun a b => a + b)).1.mem 1 = (⟨fun i => i, 2⟩ : Heap Nat).mem 1) :=
  ⟨⟨by decide, by decide⟩,
    claim10_caller_arrays_preserved (⟨fun i => i, 2⟩ : Heap Nat) 0 1
      (fun a => a + 1) (fun a => a + 2) (fun a b => (a * 2, b * 2)) true
      (fun a b => (a + b, a * b)) true (fun a => a) (fun a b => a + b)
      (by decide) (by decide)⟩

end Pixelnet
